import Mathlib

/-!
Shallow embedding of `param_server.py` (norrislabs/param_server).

Python strings are modelled as `List Char` (`Str`), so that Python's
`str.split`, `in` and concatenation become ordinary list operations.
The pickledb database object (a JSON-backed Python dict, `auto_dump=False`)
is modelled as an insertion-ordered association list: assignment replaces an
existing key in place or appends a fresh one, deletion removes the entry,
mirroring Python dict semantics.  Parameter values are a tagged union of
scalar string, list and dict, mirroring the `type(...) == list / dict`
dispatch in `put_parameter_in_db`.  Fallible code (the `pname, pos =
name.split(":")` unpacking, XML attribute serialization of non-string
values) is modelled with `Except`.  The b9py messaging substrate is
external to the repository: publisher advertising is an oracle
`advOk : Str → Bool`, and published messages are collected into a list.

The XML layer of the serializer is modelled at the level of its net
observable effect.  Saving runs
`minidom.parseString(ET.tostring(root)).toprettyxml` (line 144):
`ET.tostring` raises TypeError on a non-string attribute value;
`minidom.parseString` raises ExpatError when an attribute holds a
character outside the XML 1.0 Char production; and for text that does
serialize, minidom's attribute writer leaves literal tab/LF/CR unescaped
inside the quotes, so the later `ET.parse` returns them normalized to
spaces (XML attribute-value normalization).  Files are therefore
modelled as the document `ET.parse` yields (`XFile.doc`, with saved
attributes already carrying the write-then-reparse normalization) or as
unparsable text (`XFile.malformed`, on which load raises ParseError —
only FileNotFoundError is caught in the source).

One deliberate simplification: queued change entries snapshot their value
at enqueue time; Python's aliasing of a mutated list object into
previously queued entries (via pickledb returning references) is not
modelled.  The `found` flag mutation performed by `get_parameter_from_db`
on the stored record IS modelled, because pickledb's `get` returns the
stored dict itself.
-/

/-- Python strings, as lists of characters. -/
abbrev Str : Type := List Char

/-- Python dict lookup (`d[k]` / `k in d`), over an insertion-ordered
association list. -/
def alookup {α : Type} (k : Str) : List (Str × α) → Option α
  | [] => none
  | (k', v) :: rest => if k = k' then some v else alookup k rest

/-- Python dict assignment `d[k] = v`: replaces an existing key in place,
otherwise appends at the end (insertion order). -/
def aset {α : Type} (k : Str) (v : α) : List (Str × α) → List (Str × α)
  | [] => [(k, v)]
  | (k', v') :: rest => if k = k' then (k, v) :: rest else (k', v') :: aset k v rest

/-- Python dict deletion `del d[k]`: removes the entry with key `k`. -/
def aremove {α : Type} (k : Str) : List (Str × α) → List (Str × α)
  | [] => []
  | (k', v') :: rest => if k = k' then rest else (k', v') :: aremove k rest

/-- A parameter value: Python scalar string, list, or dict
(`type(existing_item[valueKey])` dispatch in `put_parameter_in_db`). -/
inductive PValue : Type where
  | str : Str → PValue
  | list : List PValue → PValue
  | dict : List (Str × PValue) → PValue

/-- `true` exactly when the runtime shape is a Python list. -/
def PValue.isList : PValue → Bool
  | .list _ => true
  | _ => false

/-- `true` exactly when the runtime shape is a Python dict. -/
def PValue.isDict : PValue → Bool
  | .dict _ => true
  | _ => false

/-- A parameter record, the dict stored in the database and queued for
publication.  The `found` key is absent (`none`) until a read sets it. -/
structure ParamEntry : Type where
  nodename : Str
  ns : Str
  type : Str
  name : Str
  position : Option Str
  value : PValue
  found : Option Bool

/-- The pickledb database: fully-qualified name to record, insertion order. -/
abbrev Store : Type := List (Str × ParamEntry)

/-- Publisher slot of a namespace channel: `_parameter_namespace_pubs[ns]`
is `[q]` (unattempted), `[q, pub]` (active) or `[q, None]` (failed). -/
inductive PubSlot : Type where
  | unattempted : PubSlot
  | active : PubSlot
  | failed : PubSlot

/-- One per-namespace channel: the bounded change queue plus pub slot. -/
structure Channel : Type where
  queue : List ParamEntry
  slot : PubSlot

/-- `_parameter_namespace_pubs`, keyed by namespace, insertion order. -/
abbrev Pubs : Type := List (Str × Channel)

/-- A parsed XML element as ElementTree presents it: tag plus the
attributes read and written by this program. -/
structure XElem : Type where
  tag : Str
  ns : Str
  name : Str
  type : Str
  value : Str

/-- A file in the `parameters/` directory, abstracted as what `ET.parse`
makes of its text: either a well-formed document (the list of parsed
elements, attributes as expat returns them after attribute-value
normalization), or text that does not parse, on which `ET.parse` raises
`ParseError`. -/
inductive XFile : Type where
  | malformed : XFile
  | doc : List XElem → XFile

/-- The `parameters/` directory: file name to file content. -/
abbrev FS : Type := List (Str × XFile)

/-- The process-wide mutable state: database, namespace channels, files. -/
structure ServerState : Type where
  db : Store
  pubs : Pubs
  fs : FS

/-- Queue capacity constant `QMAX`. -/
def QMAX : Nat := 10

/-- The "all namespaces" sentinel literal. -/
def atAll : Str := "@".data

/-- External constant `b9py.Message.MSGTYPE_LIST`; the spec fixes the type
tag vocabulary to String/List/Dict. -/
def MSGTYPE_LIST : Str := "List".data

/-- External constant `b9py.Message.MSGTYPE_DICT`. -/
def MSGTYPE_DICT : Str := "Dict".data

/-- Python `s.split(sep)` for a single-character separator: splits at every
occurrence; `"".split(sep) = [""]`. -/
def pySplit (sep : Char) : Str → List Str
  | [] => [[]]
  | c :: rest =>
    if c = sep then [] :: pySplit sep rest
    else
      match pySplit sep rest with
      | [] => [[c]]
      | p :: ps => (c :: p) :: ps

/-- Lines 51-54: `pname, pos = name.split(":")` when `':' in name`.  The
tuple unpacking raises `ValueError` unless the split has exactly two
parts, i.e. the name holds more than one colon. -/
def splitName (name : Str) : Except String (Str × Option Str) :=
  if ':' ∈ name then
    match pySplit ':' name with
    | [p, q] => .ok (p, some q)
    | _ => .error "ValueError"
  else .ok (name, none)

/-- Lines 100-102: drop the oldest entry when the queue is at capacity,
then enqueue the new entry at the tail. -/
def enqueue_change (q : List ParamEntry) (e : ParamEntry) : List ParamEntry :=
  if q.length = QMAX then q.drop 1 ++ [e] else q ++ [e]

/-- Update the channel of namespace `k` in place. -/
def pubsUpdate (ps : Pubs) (k : Str) (f : Channel → Channel) : Pubs :=
  ps.map (fun kv => if kv.1 = k then (kv.1, f kv.2) else kv)

/-- Lines 47-49 of `put_parameter_in_db`: create the namespace queue on
first use. -/
def put_pubs0 (ns : Str) (pubs : Pubs) : Pubs :=
  if (alookup ns pubs).isSome then pubs
  else pubs ++ [(ns, ⟨[], .unattempted⟩)]

/-- Lines 56-93 of `put_parameter_in_db`: the record to be stored and
queued, after the positional-mutation logic has run against the database. -/
def put_entry (ns nodename value_type pname : Str) (pos : Option Str)
    (value : PValue) (db : Store) : ParamEntry :=
  let entry0 : ParamEntry :=
    ⟨nodename, ns, value_type, pname, pos, value, none⟩
  match pos with
  | none => entry0
  | some p =>
    match alookup (ns ++ '/' :: pname) db with
    | some existing =>
      match existing.value with
      | .list xs =>
        -- head '[' / tail ']' insert; any other token only logs an error
        let xs' : List PValue :=
          if p = "[".data then value :: xs
          else if p = "]".data then xs ++ [value]
          else xs
        { entry0 with value := .list xs', type := MSGTYPE_LIST }
      | .dict m =>
        { entry0 with value := .dict (aset p value m), type := MSGTYPE_DICT }
      | .str _ =>
        -- warning: must be a List or Dict to add elements
        entry0
    | none =>
      -- warning: must be initialized to a List or Dict
      entry0

/-- Lines 97-102 of `put_parameter_in_db`: queue up the changed parameter
when `publish_change` is set. -/
def put_pubs (pubs0 : Pubs) (ns : Str) (publish_change : Bool)
    (entry : ParamEntry) : Pubs :=
  if publish_change then
    pubsUpdate pubs0 ns (fun ch => { ch with queue := enqueue_change ch.queue entry })
  else pubs0

/-- `put_parameter_in_db` (lines 43-102).  Note that line 95
(`dbParam.set(param_name, param_entry)`) sits outside every guard: it
executes on the warning paths too. -/
def put_parameter_in_db (ns nodename value_type name : Str) (value : PValue)
    (publish_change : Bool) (st : ServerState) : Except String ServerState :=
  match splitName name with
  | .error e => .error e
  | .ok (pname, pos) =>
    let entry : ParamEntry := put_entry ns nodename value_type pname pos value st.db
    .ok { st with
          db := aset (ns ++ '/' :: pname) entry st.db,
          pubs := put_pubs (put_pubs0 ns st.pubs) ns publish_change entry }

/-- `get_parameter_from_db` (lines 23-40).  On a miss the returned
placeholder dict carries only namespace/type/name/value/found; the absent
nodename and position keys are modelled as `[]` and `none`.  On a hit,
`existing_item['found'] = True` mutates the stored record itself, because
pickledb's `get` returns the stored object. -/
def get_parameter_from_db (ns name : Str) (db : Store) : ParamEntry × Store :=
  let param_name : Str := ns ++ '/' :: name
  match alookup param_name db with
  | none =>
    (⟨[], ns, "String".data, name, none, .str "?".data, some false⟩, db)
  | some existing =>
    let e' : ParamEntry := { existing with found := some true }
    (e', aset param_name e' db)

/-- The `list` branch of `parameter_cb` (lines 165-171): enumerate records
whose namespace matches the filter (or all, for the `@` sentinel). -/
def list_parameters (ns : Str) (db : Store) : List ParamEntry :=
  (db.filter (fun kv => decide (ns = atAll ∨ ns = kv.2.ns))).map (fun kv => kv.2)

/-- The removal loop of the `purge` branch (lines 178-184): iterate over a
snapshot of the keys, removing each record whose namespace matches. -/
def purge_loop : List Str → Str → Store → Store
  | [], _, db => db
  | k :: rest, target, db =>
    let db' : Store :=
      match alookup k db with
      | some e => if target = e.ns then aremove k db else db
      | none => db
    purge_loop rest target db'

/-- The `purge` branch of `parameter_cb` (lines 174-184): `deldb` on the
`@` sentinel, otherwise the removal loop over a key snapshot. -/
def purge_db (ns : Str) (db : Store) : Store :=
  if ns = atAll then []
  else purge_loop (db.map Prod.fst) ns db

/-- Character acceptance of expat, the XML 1.0 Char production: tab, LF,
CR, and the three non-control ranges.  `minidom.parseString` at line 144
raises ExpatError when an attribute holds any other character. -/
def xmlValidChar (c : Char) : Bool :=
  c = '\t' || c = '\n' || c = '\r' ||
  (0x20 ≤ c.toNat && c.toNat ≤ 0xD7FF) ||
  (0xE000 ≤ c.toNat && c.toNat ≤ 0xFFFD) ||
  (0x10000 ≤ c.toNat && c.toNat ≤ 0x10FFFF)

/-- Every character of the string is accepted by expat. -/
def xmlValidStr (s : Str) : Bool := s.all xmlValidChar

/-- All five attribute strings of an element serialize without ExpatError. -/
def xmlElemValid (el : XElem) : Bool :=
  xmlValidStr el.tag && xmlValidStr el.ns && xmlValidStr el.name &&
  xmlValidStr el.type && xmlValidStr el.value

/-- The net effect on an attribute string of being written by
`toprettyxml` (minidom leaves tab/LF/CR literal inside the quoted
attribute) and then re-read by `ET.parse` (whose attribute-value
normalization turns literal tab/LF/CR into spaces).  All other XML-valid
characters round-trip exactly: `ET.tostring` escapes them as needed,
minidom re-escapes ampersands, angle brackets and quotes, and expat
decodes the references back. -/
def xmlAttrNormalize : Str → Str
  | [] => []
  | c :: rest =>
    (if c = '\t' || c = '\n' || c = '\r' then ' ' else c) :: xmlAttrNormalize rest

/-- The write-then-reparse transformation of one saved element. -/
def xmlWriteElem (el : XElem) : XElem :=
  ⟨el.tag, xmlAttrNormalize el.ns, xmlAttrNormalize el.name,
   xmlAttrNormalize el.type, xmlAttrNormalize el.value⟩

/-- A character that survives the save pipeline unchanged: accepted by
expat and not subject to attribute-value whitespace normalization. -/
def xmlCleanChar (c : Char) : Bool :=
  xmlValidChar c && !(c = '\t' || c = '\n' || c = '\r')

/-- Every character of the string survives the save pipeline unchanged. -/
def xmlCleanStr (s : Str) : Bool := s.all xmlCleanChar

/-- XML attribute serialization, first stage: `ET.tostring` raises
`TypeError` when an attribute value is not a string (the save routine
assigns the raw value).  The ExpatError raised later by
`minidom.parseString` on XML-invalid characters is modelled separately in
`save_parameters_to_file`. -/
def attribOfValue : PValue → Except String Str
  | .str s => .ok s
  | _ => .error "TypeError"

/-- Build the parameter elements written by `save_parameters_to_file`;
the serialization error surfaces when any matching value is non-scalar. -/
def buildElems : List (Str × ParamEntry) → Except String (List XElem)
  | [] => .ok []
  | (_, e) :: rest =>
    match attribOfValue e.value with
    | .error err => .error err
    | .ok v =>
      match buildElems rest with
      | .error err => .error err
      | .ok ds => .ok (⟨"parameter".data, e.ns, e.name, e.type, v⟩ :: ds)

/-- `save_parameters_to_file` (lines 130-146): emit one element per record
whose namespace matches the filter, then write the document through the
minidom prettyprint pipeline: TypeError for a non-string value, ExpatError
for an XML-invalid character in any attribute, and otherwise a file whose
parse returns the attributes with tab/LF/CR normalized to spaces. -/
def save_parameters_to_file (filename ns : Str) (st : ServerState) :
    Except String ServerState :=
  match buildElems (st.db.filter (fun kv => decide (ns = atAll ∨ ns = kv.2.ns))) with
  | .error err => .error err
  | .ok doc =>
    if doc.all xmlElemValid then
      .ok { st with fs := aset filename (.doc (doc.map xmlWriteElem)) st.fs }
    else .error "ExpatError"

/-- The scalar payload of a value (save writes it as the value attribute). -/
def unStr : PValue → Str
  | .str s => s
  | _ => []

/-- The (namespace, name, type, value) tuple of a record. -/
def entryTuple (e : ParamEntry) : Str × Str × Str × PValue :=
  (e.ns, e.name, e.type, e.value)

/-- The element `save_parameters_to_file` builds for a stored record. -/
def elemOfRecord (kv : Str × ParamEntry) : XElem :=
  ⟨"parameter".data, kv.2.ns, kv.2.name, kv.2.type, unStr kv.2.value⟩

/-- The record created by loading one parameter element into the db. -/
def loadedEntry (el : XElem) : ParamEntry :=
  ⟨"default".data, el.ns, el.type, el.name, none, .str el.value, none⟩

/-- The db pair a loaded element settles into. -/
def pairOfElem (el : XElem) : Str × ParamEntry :=
  (el.ns ++ '/' :: el.name, loadedEntry el)

/-- `load_parameter_from_xml` (lines 105-108). -/
def load_parameter_from_xml (element : XElem) (publish_change : Bool)
    (st : ServerState) : Except String ServerState :=
  put_parameter_in_db element.ns "default".data element.type element.name
    (.str element.value) publish_change st

/-- The per-element loop of `load_parameters_from_file` (lines 117-120). -/
def load_elements (elems : List XElem) (ns : Str) (publish_change : Bool)
    (st : ServerState) : Except String ServerState :=
  match elems with
  | [] => .ok st
  | el :: rest =>
    if el.tag = "parameter".data ∧ (ns = atAll ∨ ns = el.ns) then
      match load_parameter_from_xml el publish_change st with
      | .error err => .error err
      | .ok st' => load_elements rest ns publish_change st'
    else load_elements rest ns publish_change st

/-- `load_parameters_from_file` (lines 111-127): only `FileNotFoundError`
is caught (returning `False`); `ET.ParseError` on a malformed file and
errors raised by the per-element puts propagate. -/
def load_parameters_from_file (filename ns : Str) (publish_change : Bool)
    (st : ServerState) : Except String (Bool × ServerState) :=
  match alookup filename st.fs with
  | none => .ok (false, st)
  | some .malformed => .error "ParseError"
  | some (.doc d) =>
    match load_elements d ns publish_change st with
    | .error err => .error err
    | .ok st' => .ok (true, st')

/-- An inbound command message (`message.data`). -/
structure CmdMsg : Type where
  cmd : Str
  ns : Str
  name : Str
  type : Str
  value : PValue
  nodename : Str
  filename : Str
  publish_change : Bool

/-- A response message: the fixed "OK" string, one record, or a list. -/
inductive Response : Type where
  | okMsg : Response
  | record : ParamEntry → Response
  | records : List ParamEntry → Response

/-- `parameter_cb` (lines 149-194): case-insensitive dispatch on `cmd`;
unrecognized commands fall through to the default "OK" response. -/
def parameter_cb (m : CmdMsg) (st : ServerState) :
    Except String (Response × ServerState) :=
  let c : Str := m.cmd.map Char.toLower
  if c = "put".data then
    match put_parameter_in_db m.ns m.nodename m.type m.name m.value true st with
    | .error err => .error err
    | .ok st' => .ok (.okMsg, st')
  else if c = "get".data then
    let r := get_parameter_from_db m.ns m.name st.db
    .ok (.record r.1, { st with db := r.2 })
  else if c = "list".data then
    .ok (.records (list_parameters m.ns st.db), st)
  else if c = "purge".data then
    .ok (.okMsg, { st with db := purge_db m.ns st.db })
  else if c = "save".data then
    match save_parameters_to_file m.filename m.ns st with
    | .error err => .error err
    | .ok st' => .ok (.okMsg, st')
  else if c = "load".data then
    match load_parameters_from_file m.filename m.ns m.publish_change st with
    | .error err => .error err
    | .ok st' => .ok (.okMsg, st'.2)
  else .ok (.okMsg, st)

/-- `process_changes` (lines 197-222): for each namespace in order, either
attempt the one-shot publisher advertise (success/failure recorded, no
publish on that tick), or, with an active publisher, dequeue and publish
at most one pending entry.  Advertise outcomes come from the oracle
`advOk`; published messages are collected in the second component. -/
def process_changes (advOk : Str → Bool) :
    Pubs → Pubs × List (Str × ParamEntry)
  | [] => ([], [])
  | (ns, ch) :: rest =>
    let r := process_changes advOk rest
    match ch.slot with
    | .unattempted =>
      ((ns, ⟨ch.queue, if advOk ns then .active else .failed⟩) :: r.1, r.2)
    | .active =>
      match ch.queue with
      | [] => ((ns, ch) :: r.1, r.2)
      | e :: q => ((ns, ⟨q, .active⟩) :: r.1, (ns, e) :: r.2)
    | .failed => ((ns, ch) :: r.1, r.2)

/-- Iterate drain ticks, concatenating the published messages. -/
def run_ticks (advOk : Str → Bool) : Nat → Pubs → Pubs × List (Str × ParamEntry)
  | 0, ps => (ps, [])
  | n + 1, ps =>
    let r := process_changes advOk ps
    let r' := run_ticks advOk n r.1
    (r'.1, r.2 ++ r'.2)

/-- Reachable server states: an empty registry with arbitrary pre-existing
files, advanced by successful command callbacks and drain ticks. -/
inductive Reachable : ServerState → Prop where
  | init (fs : FS) : Reachable ⟨[], [], fs⟩
  | step (m : CmdMsg) (st st' : ServerState) (r : Response) :
      Reachable st → parameter_cb m st = .ok (r, st') → Reachable st'
  | tick (advOk : Str → Bool) (st : ServerState) :
      Reachable st →
      Reachable { st with pubs := (process_changes advOk st.pubs).1 }

/-! ### Association-list lemmas -/

theorem alookup_aset_self {α : Type} (k : Str) (v : α) (l : List (Str × α)) :
    alookup k (aset k v l) = some v := by
  induction l with
  | nil => simp [aset, alookup]
  | cons hd tl ih =>
    by_cases h : k = hd.1
    · simp [aset, h, alookup]
    · simp [aset, alookup, h, ih]

theorem alookup_aset_ne {α : Type} (k k' : Str) (v : α) (l : List (Str × α))
    (h : k ≠ k') : alookup k (aset k' v l) = alookup k l := by
  induction l with
  | nil => simp [aset, alookup, h]
  | cons hd tl ih =>
    by_cases h1 : k' = hd.1
    · subst h1
      simp [aset, alookup, h, ih]
    · by_cases h2 : k = hd.1
      · simp [aset, alookup, h1, h2]
      · simp [aset, alookup, h1, h2, ih]

theorem mem_aset {α : Type} (x : Str × α) (k : Str) (v : α) (l : List (Str × α))
    (h : x ∈ aset k v l) : x ∈ l ∨ x = (k, v) := by
  induction l with
  | nil => simpa [aset] using h
  | cons hd tl ih =>
    by_cases h1 : k = hd.1
    · simp only [aset, if_pos h1] at h
      rcases List.mem_cons.mp h with h | h
      · exact Or.inr h
      · exact Or.inl (List.mem_cons_of_mem _ h)
    · simp only [aset, if_neg h1] at h
      rcases List.mem_cons.mp h with h | h
      · exact Or.inl (h ▸ List.mem_cons_self _ _)
      · rcases ih h with h | h
        · exact Or.inl (List.mem_cons_of_mem _ h)
        · exact Or.inr h

theorem mem_aremove {α : Type} (x : Str × α) (k : Str) (l : List (Str × α))
    (h : x ∈ aremove k l) : x ∈ l := by
  induction l with
  | nil => simp [aremove] at h
  | cons hd tl ih =>
    by_cases h1 : k = hd.1
    · simp only [aremove, if_pos h1] at h
      exact List.mem_cons_of_mem _ h
    · simp only [aremove, if_neg h1] at h
      rcases List.mem_cons.mp h with h | h
      · exact h ▸ List.mem_cons_self _ _
      · exact List.mem_cons_of_mem _ (ih h)

theorem alookup_mem {α : Type} (k : Str) (v : α) (l : List (Str × α))
    (h : alookup k l = some v) : (k, v) ∈ l := by
  induction l with
  | nil => simp [alookup] at h
  | cons hd tl ih =>
    by_cases h1 : k = hd.1
    · simp only [alookup, if_pos h1] at h
      cases h
      exact h1 ▸ List.mem_cons_self _ _
    · simp only [alookup, if_neg h1] at h
      exact List.mem_cons_of_mem _ (ih h)

theorem alookup_eq_none_iff {α : Type} (k : Str) (l : List (Str × α)) :
    alookup k l = none ↔ k ∉ l.map Prod.fst := by
  induction l with
  | nil => simp [alookup]
  | cons hd tl ih =>
    by_cases h1 : k = hd.1
    · simp only [alookup, if_pos h1, List.map_cons, List.mem_cons]
      constructor
      · intro h
        exact (Option.some_ne_none _ h).elim
      · intro h
        exact absurd (Or.inl h1) h
    · simp only [alookup, if_neg h1, List.map_cons, List.mem_cons, not_or]
      rw [ih]
      exact (and_iff_right h1).symm

theorem alookup_append_of_none {α : Type} (k : Str) (pre l : List (Str × α))
    (h : alookup k pre = none) : alookup k (pre ++ l) = alookup k l := by
  induction pre with
  | nil => simp
  | cons hd tl ih =>
    by_cases h1 : k = hd.1
    · simp [alookup, h1] at h
    · simp only [alookup, if_neg h1] at h
      simpa [alookup, h1] using ih h

theorem aremove_append_of_none {α : Type} (k : Str) (pre l : List (Str × α))
    (h : alookup k pre = none) : aremove k (pre ++ l) = pre ++ aremove k l := by
  induction pre with
  | nil => simp
  | cons hd tl ih =>
    by_cases h1 : k = hd.1
    · simp [alookup, h1] at h
    · simp only [alookup, if_neg h1] at h
      simpa [aremove, h1] using ih h

theorem aset_append_of_none {α : Type} (k : Str) (v : α) (l : List (Str × α))
    (h : alookup k l = none) : aset k v l = l ++ [(k, v)] := by
  induction l with
  | nil => simp [aset]
  | cons hd tl ih =>
    by_cases h1 : k = hd.1
    · simp [alookup, h1] at h
    · simp only [alookup, if_neg h1] at h
      simp [aset, h1, ih h]

/-! ### Split lemmas -/

theorem pySplit_ne_nil (sep : Char) (s : Str) : pySplit sep s ≠ [] := by
  cases s with
  | nil => simp [pySplit]
  | cons c rest =>
    by_cases h : c = sep
    · simp [pySplit, h]
    · simp only [pySplit, if_neg h]
      cases pySplit sep rest <;> simp

theorem pySplit_of_not_mem (sep : Char) (s : Str) (h : sep ∉ s) :
    pySplit sep s = [s] := by
  induction s with
  | nil => simp [pySplit]
  | cons c rest ih =>
    have hc : ¬c = sep := fun hc => h (hc ▸ List.mem_cons_self _ _)
    have hr : sep ∉ rest := fun hr => h (List.mem_cons_of_mem _ hr)
    simp [pySplit, hc, ih hr]

theorem pySplit_append_sep (sep : Char) (a b : Str) (ha : sep ∉ a) :
    pySplit sep (a ++ sep :: b) = a :: pySplit sep b := by
  induction a with
  | nil => simp [pySplit]
  | cons c rest ih =>
    have hc : ¬c = sep := fun hc => ha (hc ▸ List.mem_cons_self _ _)
    have hr : sep ∉ rest := fun hr => ha (List.mem_cons_of_mem _ hr)
    simp [pySplit, hc, ih hr]

theorem not_mem_of_mem_pySplit (sep : Char) (s : Str) (p : Str)
    (h : p ∈ pySplit sep s) : sep ∉ p := by
  induction s generalizing p with
  | nil =>
    simp [pySplit] at h
    simp [h]
  | cons c rest ih =>
    by_cases hc : c = sep
    · simp only [pySplit, if_pos hc] at h
      rcases List.mem_cons.mp h with h | h
      · simp [h]
      · exact ih p h
    · simp only [pySplit, if_neg hc] at h
      cases hps : pySplit sep rest with
      | nil => exact absurd hps (pySplit_ne_nil sep rest)
      | cons q qs =>
        rw [hps] at h
        rcases List.mem_cons.mp h with h | h
        · subst h
          intro hm
          rcases List.mem_cons.mp hm with hm | hm
          · exact hc hm.symm
          · exact ih q (hps ▸ List.mem_cons_self _ _) hm
        · exact ih p (hps ▸ List.mem_cons_of_mem _ h)

theorem splitName_of_not_mem (name : Str) (h : ':' ∉ name) :
    splitName name = .ok (name, none) := by
  simp [splitName, h]

theorem splitName_append (a b : Str) (ha : ':' ∉ a) (hb : ':' ∉ b) :
    splitName (a ++ ':' :: b) = .ok (a, some b) := by
  have hm : ':' ∈ a ++ ':' :: b := List.mem_append_right _ (List.mem_cons_self _ _)
  simp [splitName, hm, pySplit_append_sep ':' a b ha, pySplit_of_not_mem ':' b hb]

theorem splitName_ok_left (name p : Str) (o : Option Str)
    (h : splitName name = .ok (p, o)) : ':' ∉ p := by
  by_cases hm : ':' ∈ name
  · simp only [splitName, if_pos hm] at h
    cases hps : pySplit ':' name with
    | nil => exact absurd hps (pySplit_ne_nil ':' name)
    | cons q qs =>
      rw [hps] at h
      cases qs with
      | nil => simp at h
      | cons q2 qs2 =>
        cases qs2 with
        | nil =>
          simp only [Except.ok.injEq, Prod.mk.injEq] at h
          have hq : q ∈ pySplit ':' name := hps ▸ List.mem_cons_self _ _
          exact h.1 ▸ not_mem_of_mem_pySplit ':' name q hq
        | cons q3 qs3 => simp at h
  · simp only [splitName, if_neg hm, Except.ok.injEq, Prod.mk.injEq] at h
    exact h.1 ▸ hm

theorem put_eq_of_split (ns nod t name : Str) (v : PValue) (pc : Bool)
    (st : ServerState) (pname : Str) (pos : Option Str)
    (hs : splitName name = .ok (pname, pos)) :
    put_parameter_in_db ns nod t name v pc st =
      .ok { st with
            db := aset (ns ++ '/' :: pname) (put_entry ns nod t pname pos v st.db) st.db,
            pubs := put_pubs (put_pubs0 ns st.pubs) ns pc
              (put_entry ns nod t pname pos v st.db) } := by
  simp [put_parameter_in_db, hs]

theorem put_entry_of_none (ns nod t pname : Str) (v : PValue) (db : Store) :
    put_entry ns nod t pname none v db = ⟨nod, ns, t, pname, none, v, none⟩ := rfl

theorem put_entry_ns (ns nod t pname : Str) (pos : Option Str) (v : PValue)
    (db : Store) : (put_entry ns nod t pname pos v db).ns = ns := by
  cases pos with
  | none => rfl
  | some p =>
    cases h : alookup (ns ++ '/' :: pname) db with
    | none => simp [put_entry, h]
    | some e =>
      obtain ⟨e1, e2, e3, e4, e5, val, e7⟩ := e
      cases val <;> simp [put_entry, h]

theorem put_entry_name (ns nod t pname : Str) (pos : Option Str) (v : PValue)
    (db : Store) : (put_entry ns nod t pname pos v db).name = pname := by
  cases pos with
  | none => rfl
  | some p =>
    cases h : alookup (ns ++ '/' :: pname) db with
    | none => simp [put_entry, h]
    | some e =>
      obtain ⟨e1, e2, e3, e4, e5, val, e7⟩ := e
      cases val <;> simp [put_entry, h]

theorem put_db_shape (ns nod t name : Str) (v : PValue) (pc : Bool)
    (st st' : ServerState)
    (h : put_parameter_in_db ns nod t name v pc st = .ok st') :
    ∃ pname entry, (':' ∉ pname) ∧ entry.ns = ns ∧ entry.name = pname ∧
      st'.db = aset (ns ++ '/' :: pname) entry st.db ∧ st'.fs = st.fs := by
  cases hs : splitName name with
  | error e =>
    rw [put_parameter_in_db, hs] at h
    cases h
  | ok pr =>
    rw [put_eq_of_split ns nod t name v pc st pr.1 pr.2 (by rw [hs])] at h
    cases h
    exact ⟨pr.1, _, splitName_ok_left name pr.1 pr.2 (by rw [hs]),
      put_entry_ns ns nod t pr.1 pr.2 v st.db,
      put_entry_name ns nod t pr.1 pr.2 v st.db, rfl, rfl⟩

theorem get_miss (ns name : Str) (db : Store)
    (h : alookup (ns ++ '/' :: name) db = none) :
    get_parameter_from_db ns name db =
      (⟨[], ns, "String".data, name, none, .str "?".data, some false⟩, db) := by
  simp [get_parameter_from_db, h]

theorem get_hit (ns name : Str) (db : Store) (e : ParamEntry)
    (h : alookup (ns ++ '/' :: name) db = some e) :
    get_parameter_from_db ns name db =
      ({ e with found := some true },
       aset (ns ++ '/' :: name) { e with found := some true } db) := by
  simp [get_parameter_from_db, h]

/-- The empty initial server state (fresh registry, no files). -/
def emptyState : ServerState := ⟨[], [], []⟩

/-! ### C1 -/

/-- C1 counterexample: the claim quantifies over every name `k`, but for
`k = "a:b"` the put stores the record under `n/a` (the split prefix) while
the get looks up `n/a:b`, so the returned record has `found = false`, not
`true`. -/
theorem put_get_colon_name_counterexample :
    put_parameter_in_db "n".data "nod".data "T".data "a:b".data
        (.str "v".data) true emptyState =
      .ok ⟨[("n/a".data,
             ⟨"nod".data, "n".data, "T".data, "a".data, some "b".data, .str "v".data, none⟩)],
           [("n".data,
             ⟨[⟨"nod".data, "n".data, "T".data, "a".data, some "b".data, .str "v".data, none⟩],
              .unattempted⟩)],
           []⟩
    ∧ (get_parameter_from_db "n".data "a:b".data
        [("n/a".data,
          ⟨"nod".data, "n".data, "T".data, "a".data, some "b".data, .str "v".data, none⟩)]).1.found
      = some false :=
  ⟨rfl, rfl⟩

/-- C1 (amended): for every namespace, nodename, type tag, value and every
name `k` that holds no ':', `put` followed by `get` of `k` returns a
record whose value is the written value, whose type is the supplied tag,
and whose found flag is true. -/
theorem put_then_get_returns_value (ns nod t name : Str) (v : PValue)
    (pc : Bool) (st : ServerState) (hn : ':' ∉ name) :
    ∃ st', put_parameter_in_db ns nod t name v pc st = .ok st' ∧
      (get_parameter_from_db ns name st'.db).1.value = v ∧
      (get_parameter_from_db ns name st'.db).1.type = t ∧
      (get_parameter_from_db ns name st'.db).1.found = some true := by
  have hs := splitName_of_not_mem name hn
  refine ⟨_, put_eq_of_split ns nod t name v pc st name none hs, ?_, ?_, ?_⟩ <;>
    simp [get_hit ns name _ _ (alookup_aset_self (ns ++ '/' :: name) _ st.db),
      put_entry_of_none]

/-- Witness for C1: a concrete put/get round trip. -/
theorem put_then_get_returns_value_witness :
    ∃ st', put_parameter_in_db "n".data "nod".data "T".data "k".data
        (.str "v".data) true emptyState = .ok st' ∧
      (get_parameter_from_db "n".data "k".data st'.db).1.value = .str "v".data ∧
      (get_parameter_from_db "n".data "k".data st'.db).1.type = "T".data ∧
      (get_parameter_from_db "n".data "k".data st'.db).1.found = some true :=
  put_then_get_returns_value "n".data "nod".data "T".data "k".data
    (.str "v".data) true emptyState (by decide)

/-! ### C2 -/

/-- C2: the claim says a positional put against an absent key leaves the
key absent.  In the code, line 95 (`dbParam.set`) runs unconditionally, so
the put stores a fresh scalar record at the target key: starting from an
empty registry, `put(ns, nod, String, "k:[", v)` creates a record at
`ns/k` holding the raw scalar value.  The same run also shows the
scalar-target case: a second positional put against the now scalar-valued
key overwrites the stored record instead of leaving it unchanged. -/
theorem positional_put_absent_key_creates_record :
    (put_parameter_in_db "ns".data "nod".data "String".data "k:[".data
        (.str "v".data) false emptyState =
      .ok ⟨[("ns/k".data,
             ⟨"nod".data, "ns".data, "String".data, "k".data, some "[".data,
              .str "v".data, none⟩)],
           [("ns".data, ⟨[], .unattempted⟩)], []⟩)
    ∧ (put_parameter_in_db "ns".data "other".data "Int32".data "k:]".data
        (.str "w".data) false
        ⟨[("ns/k".data,
           ⟨"nod".data, "ns".data, "String".data, "k".data, some "[".data,
            .str "v".data, none⟩)],
         [("ns".data, ⟨[], .unattempted⟩)], []⟩ =
      .ok ⟨[("ns/k".data,
             ⟨"other".data, "ns".data, "Int32".data, "k".data, some "]".data,
              .str "w".data, none⟩)],
           [("ns".data, ⟨[], .unattempted⟩)], []⟩) :=
  ⟨rfl, rfl⟩

/-! ### C3 -/

/-- C3: against an existing sequence-valued parameter, the head marker
prepends and the tail marker appends the new value; against an existing
mapping-valued parameter any (colon-free) position token sets that map
key, inserting a new key or overwriting an existing one; in all cases the
stored record's type tag is rewritten to the List or Dict tag matching the
mutated shape. -/
theorem positional_insert_semantics (ns nod t name pos : Str) (v : PValue)
    (st : ServerState) (pc : Bool) (e : ParamEntry)
    (hn : ':' ∉ name)
    (he : alookup (ns ++ '/' :: name) st.db = some e) :
    (∀ xs, e.value = .list xs →
      ∃ st', put_parameter_in_db ns nod t (name ++ ':' :: "[".data) v pc st = .ok st' ∧
        ∃ e', alookup (ns ++ '/' :: name) st'.db = some e' ∧
          e'.value = .list (v :: xs) ∧ e'.type = MSGTYPE_LIST)
    ∧ (∀ xs, e.value = .list xs →
      ∃ st', put_parameter_in_db ns nod t (name ++ ':' :: "]".data) v pc st = .ok st' ∧
        ∃ e', alookup (ns ++ '/' :: name) st'.db = some e' ∧
          e'.value = .list (xs ++ [v]) ∧ e'.type = MSGTYPE_LIST)
    ∧ (∀ m, e.value = .dict m → ':' ∉ pos →
      ∃ st', put_parameter_in_db ns nod t (name ++ ':' :: pos) v pc st = .ok st' ∧
        ∃ e', alookup (ns ++ '/' :: name) st'.db = some e' ∧
          e'.type = MSGTYPE_DICT ∧
          ∃ m', e'.value = .dict m' ∧ alookup pos m' = some v ∧
            ∀ k, k ≠ pos → alookup k m' = alookup k m) := by
  refine ⟨?_, ?_, ?_⟩
  · intro xs hv
    have hs := splitName_append name "[".data hn (by decide)
    refine ⟨_, put_eq_of_split ns nod t _ v pc st name (some "[".data) hs,
      _, alookup_aset_self _ _ _, ?_, ?_⟩ <;>
      simp [put_entry, he, hv]
  · intro xs hv
    have hs := splitName_append name "]".data hn (by decide)
    have hne : ("]".data : Str) ≠ "[".data := by decide
    refine ⟨_, put_eq_of_split ns nod t _ v pc st name (some "]".data) hs,
      _, alookup_aset_self _ _ _, ?_, ?_⟩ <;>
      simp [put_entry, he, hv, hne]
  · intro m hv hp
    have hs := splitName_append name pos hn hp
    refine ⟨_, put_eq_of_split ns nod t _ v pc st name (some pos) hs,
      _, alookup_aset_self _ _ _, ?_, ?_⟩
    · simp [put_entry, he, hv]
    · refine ⟨aset pos v m, by simp [put_entry, he, hv],
        alookup_aset_self pos v m, fun k hk => alookup_aset_ne k pos v m hk⟩

/-- A concrete sequence-valued record and a registry holding it. -/
def listEntry : ParamEntry :=
  ⟨"w".data, "n".data, "List".data, "k".data, none,
   .list [.str "a".data, .str "b".data], none⟩

/-- A registry with one sequence-valued parameter `n/k`. -/
def listState : ServerState := ⟨[("n/k".data, listEntry)], [], []⟩

/-- Witness for C3: head insert into the concrete list `[a, b]` yields
`[x, a, b]` and rewrites the tag. -/
theorem positional_insert_semantics_witness :
    ∃ st', put_parameter_in_db "n".data "nod".data "T".data
        ("k".data ++ ':' :: "[".data) (.str "x".data) true listState = .ok st' ∧
      ∃ e', alookup ("n".data ++ '/' :: "k".data) st'.db = some e' ∧
        e'.value = .list (.str "x".data :: [.str "a".data, .str "b".data]) ∧
        e'.type = MSGTYPE_LIST :=
  (positional_insert_semantics "n".data "nod".data "T".data "k".data "b".data
      (.str "x".data) listState true listEntry (by decide) rfl).1
    [.str "a".data, .str "b".data] rfl

/-! ### C4 -/

/-- The record stored by a non-positional put with a List tag and a scalar
value: its tag disagrees with its runtime shape. -/
def mismatchedEntry : ParamEntry :=
  ⟨"nod".data, "n".data, "List".data, "k".data, none, .str "v".data, none⟩

/-- C4 counterexample: the code never checks the supplied tag against the
value's shape for a non-positional put, so a single put from the empty
registry stores a record tagged List whose value is a scalar — the claimed
invariant fails in a reachable state reached by one put. -/
theorem tag_shape_agreement_counterexample :
    put_parameter_in_db "n".data "nod".data MSGTYPE_LIST "k".data
        (.str "v".data) false emptyState =
      .ok ⟨[("n/k".data, mismatchedEntry)], [("n".data, ⟨[], .unattempted⟩)], []⟩
    ∧ mismatchedEntry.type = MSGTYPE_LIST
    ∧ mismatchedEntry.value.isList = false :=
  ⟨rfl, rfl, rfl⟩

/-- C4 (amended): a put whose rawName carries a (colon-free) position
token and whose target exists with a sequence or mapping value stores a
record whose List/Dict tag agrees with the mutated shape; the
tag-shape-agreement invariant does not hold for all reachable states
because non-positional puts store the supplied tag without any check. -/
theorem positional_put_tag_matches_shape (ns nod t name pos : Str) (v : PValue)
    (st : ServerState) (pc : Bool) (e : ParamEntry)
    (hn : ':' ∉ name) (hp : ':' ∉ pos)
    (he : alookup (ns ++ '/' :: name) st.db = some e)
    (hshape : e.value.isList = true ∨ e.value.isDict = true) :
    ∃ st', put_parameter_in_db ns nod t (name ++ ':' :: pos) v pc st = .ok st' ∧
      ∃ e', alookup (ns ++ '/' :: name) st'.db = some e' ∧
        ((e'.type = MSGTYPE_LIST ∧ e'.value.isList = true) ∨
         (e'.type = MSGTYPE_DICT ∧ e'.value.isDict = true)) := by
  have hs := splitName_append name pos hn hp
  refine ⟨_, put_eq_of_split ns nod t _ v pc st name (some pos) hs,
    _, alookup_aset_self _ _ _, ?_⟩
  cases hv : e.value with
  | str s =>
    rw [hv] at hshape
    rcases hshape with h | h <;> simp [PValue.isList, PValue.isDict] at h
  | list xs =>
    left
    constructor <;> simp [put_entry, he, hv, PValue.isList]
  | dict m =>
    right
    constructor <;> simp [put_entry, he, hv, PValue.isDict]

/-- Witness for C4: tail insert into the concrete sequence-valued record. -/
theorem positional_put_tag_matches_shape_witness :
    ∃ st', put_parameter_in_db "n".data "nod".data "T".data
        ("k".data ++ ':' :: "]".data) (.str "x".data) true listState = .ok st' ∧
      ∃ e', alookup ("n".data ++ '/' :: "k".data) st'.db = some e' ∧
        ((e'.type = MSGTYPE_LIST ∧ e'.value.isList = true) ∨
         (e'.type = MSGTYPE_DICT ∧ e'.value.isDict = true)) :=
  positional_put_tag_matches_shape "n".data "nod".data "T".data "k".data
    "]".data (.str "x".data) listState true listEntry (by decide) (by decide)
    rfl (Or.inl rfl)

/-! ### C8 -/

theorem purge_loop_eq (target : Str) (pre rest : Store)
    (hks : ∀ k ∈ rest.map Prod.fst, alookup k pre = none)
    (hnd : (rest.map Prod.fst).Nodup) :
    purge_loop (rest.map Prod.fst) target (pre ++ rest) =
      pre ++ rest.filter (fun kv => decide (¬ target = kv.2.ns)) := by
  induction rest generalizing pre with
  | nil => simp [purge_loop]
  | cons hd tl ih =>
    have hnd' := List.nodup_cons.mp hnd
    have hpre : alookup hd.1 pre = none := hks hd.1 (List.mem_cons_self _ _)
    have hlk : alookup hd.1 (pre ++ hd :: tl) = some hd.2 := by
      rw [alookup_append_of_none _ _ _ hpre]
      simp [alookup]
    simp only [List.map_cons, purge_loop, hlk]
    by_cases hm : target = hd.2.ns
    · rw [if_pos hm]
      have hrm : aremove hd.1 (pre ++ hd :: tl) = pre ++ tl := by
        rw [aremove_append_of_none _ _ _ hpre]
        simp [aremove]
      rw [hrm, ih pre (fun k hk => hks k (List.mem_cons_of_mem _ hk)) hnd'.2]
      simp [List.filter_cons, hm]
    · rw [if_neg hm]
      have heq : pre ++ hd :: tl = (pre ++ [hd]) ++ tl := by simp
      rw [heq, ih (pre ++ [hd]) ?_ hnd'.2]
      · simp [List.filter_cons, hm]
      · intro k hk
        rw [alookup_append_of_none _ _ _ (hks k (List.mem_cons_of_mem _ hk))]
        have hne : k ≠ hd.1 := by
          intro h
          exact hnd'.1 (h ▸ hk)
        simp [alookup, hne]

/-- C8: purging with the `@` sentinel discards every record; purging a
specific namespace removes exactly the records whose namespace field
equals it, leaving every other record unchanged and in place. -/
theorem purge_semantics (n : Str) (db : Store)
    (hnd : (db.map Prod.fst).Nodup) (hne : n ≠ atAll) :
    purge_db atAll db = [] ∧
    purge_db n db = db.filter (fun kv => decide (¬ n = kv.2.ns)) := by
  constructor
  · simp [purge_db]
  · rw [purge_db, if_neg hne]
    have := purge_loop_eq n [] db (by intro k _; rfl) hnd
    simpa using this

/-- Records in two namespaces, for the purge witness. -/
def twoNsDb : Store :=
  [("a/x".data, ⟨"w".data, "a".data, "String".data, "x".data, none, .str "1".data, none⟩),
   ("b/y".data, ⟨"w".data, "b".data, "String".data, "y".data, none, .str "2".data, none⟩),
   ("a/z".data, ⟨"w".data, "a".data, "String".data, "z".data, none, .str "3".data, none⟩)]

/-- Witness for C8: purge of namespace `a` from a two-namespace registry. -/
theorem purge_semantics_witness :
    purge_db atAll twoNsDb = [] ∧
    purge_db "a".data twoNsDb =
      twoNsDb.filter (fun kv => decide (¬ "a".data = kv.2.ns)) :=
  purge_semantics "a".data twoNsDb (by decide) (by decide)

/-! ### C9 -/

/-- A scalar-valued record under `n/k`, with the found key absent. -/
def scalarKEntry : ParamEntry :=
  ⟨"nod".data, "n".data, "String".data, "k".data, none, .str "v".data, none⟩

/-- C9 counterexample: `get` on an existing key writes `found = True` into
the stored record itself (pickledb hands out the stored dict), so a read
does mutate the stored record: its found field flips from absent to true. -/
theorem get_mutates_stored_record_counterexample :
    (alookup "n/k".data
        (get_parameter_from_db "n".data "k".data
          [("n/k".data, scalarKEntry)]).2).map ParamEntry.found = some (some true)
    ∧ (alookup "n/k".data [("n/k".data, scalarKEntry)]).map ParamEntry.found
      = some none :=
  ⟨rfl, rfl⟩

/-- C9 (amended): a get on a key never written returns the found=false
placeholder and leaves the Store entirely unchanged (so a subsequent list
cannot show it), and the list command never changes the server state; but
a get on an existing key writes the found=true flag back into the stored
record (shared-reference mutation), changing nothing else. -/
theorem get_list_frame (ns name : Str) (db : Store) (m : CmdMsg)
    (st : ServerState) :
    (alookup (ns ++ '/' :: name) db = none →
      (get_parameter_from_db ns name db).1.found = some false ∧
      (get_parameter_from_db ns name db).1.value = .str "?".data ∧
      (get_parameter_from_db ns name db).2 = db)
    ∧ (∀ e, alookup (ns ++ '/' :: name) db = some e →
      (get_parameter_from_db ns name db).2 =
        aset (ns ++ '/' :: name) { e with found := some true } db)
    ∧ (m.cmd.map Char.toLower = "list".data →
      ∀ r st', parameter_cb m st = .ok (r, st') → st' = st) := by
  refine ⟨?_, ?_, ?_⟩
  · intro h
    rw [get_miss ns name db h]
    exact ⟨rfl, rfl, rfl⟩
  · intro e h
    rw [get_hit ns name db e h]
  · intro hc r st' h
    simp only [parameter_cb, hc] at h
    simp only [if_true] at h
    injection h with h
    exact (congrArg Prod.snd h).symm

/-- Witness for C9: get of a never-written key against the empty registry. -/
theorem get_list_frame_witness :
    (get_parameter_from_db "n".data "q".data []).1.found = some false ∧
    (get_parameter_from_db "n".data "q".data []).1.value = .str "?".data ∧
    (get_parameter_from_db "n".data "q".data []).2 = [] :=
  (get_list_frame "n".data "q".data []
    ⟨"list".data, atAll, [], [], .str [], [], [], false⟩ emptyState).1 rfl

/-! ### C7 -/

theorem foldl_enqueue_le (es : List ParamEntry) (q : List ParamEntry)
    (h : q.length + es.length ≤ QMAX) :
    es.foldl enqueue_change q = q ++ es := by
  induction es generalizing q with
  | nil => simp
  | cons e rest ih =>
    have hne : q.length ≠ QMAX := by
      simp only [List.length_cons] at h
      omega
    simp only [List.foldl_cons, enqueue_change, if_neg hne]
    rw [ih (q ++ [e]) (by simp only [List.length_append, List.length_cons,
      List.length_nil] at h ⊢; omega)]
    simp

theorem foldl_enqueue_overflow (es : List ParamEntry) (q : List ParamEntry)
    (hle : q.length ≤ QMAX) (h : q.length + es.length = QMAX + 1) :
    es.foldl enqueue_change q = (q ++ es).drop 1 := by
  induction es generalizing q with
  | nil =>
    exfalso
    simp only [List.length_nil] at h
    omega
  | cons e rest ih =>
    by_cases hq : q.length = QMAX
    · have hrest : rest.length = 0 := by
        simp only [List.length_cons] at h
        omega
      rw [List.length_eq_zero.mp hrest]
      simp only [List.foldl_cons, List.foldl_nil, enqueue_change, if_pos hq]
      rw [List.drop_append_of_le_length (by rw [hq]; decide)]
    · simp only [List.foldl_cons, enqueue_change, if_neg hq]
      rw [ih (q ++ [e])
        (by simp only [List.length_append, List.length_cons, List.length_nil]
            omega)
        (by simp only [List.length_append, List.length_cons,
          List.length_nil] at h ⊢; omega)]
      congr 1
      simp

theorem process_changes_out_keys (advOk : Str → Bool) (ps : Pubs) :
    ((process_changes advOk ps).2.map Prod.fst).Sublist (ps.map Prod.fst) := by
  induction ps with
  | nil => simp [process_changes]
  | cons hd tl ih =>
    obtain ⟨ns, q, sl⟩ := hd
    cases sl with
    | unattempted =>
      simp only [process_changes, List.map_cons]
      exact ih.cons _
    | active =>
      cases q with
      | nil =>
        simp only [process_changes, List.map_cons]
        exact ih.cons _
      | cons e rest =>
        simp only [process_changes, List.map_cons]
        exact ih.cons₂ _
    | failed =>
      simp only [process_changes, List.map_cons]
      exact ih.cons _

theorem run_ticks_single_active (advOk : Str → Bool) (ns : Str) (k : Nat)
    (q : List ParamEntry) :
    run_ticks advOk k [(ns, ⟨q, .active⟩)] =
      ([(ns, ⟨q.drop k, .active⟩)], (q.take k).map (fun e => (ns, e))) := by
  induction k generalizing q with
  | zero => simp [run_ticks]
  | succ n ih =>
    cases q with
    | nil => simp [run_ticks, process_changes, ih]
    | cons e rest => simp [run_ticks, process_changes, ih rest]

/-- C7: the change queue has capacity QMAX with drop-oldest overflow —
enqueuing QMAX+1 entries into an empty queue leaves exactly the last QMAX
of them, dropping the oldest; one drain tick publishes at most one entry
per namespace; and after the tick that performs the successful advertise
(which publishes nothing), successive ticks publish the queued entries in
FIFO order, i.e. starting from the second-oldest of the original burst. -/
theorem queue_eviction_and_fifo (es : List ParamEntry) (ns : Str)
    (advOk : Str → Bool) (k : Nat) (ps : Pubs)
    (hlen : es.length = QMAX + 1)
    (hadv : advOk ns = true)
    (hnd : (ps.map Prod.fst).Nodup) :
    es.foldl enqueue_change [] = es.drop 1
    ∧ ((process_changes advOk ps).2.map Prod.fst).Nodup
    ∧ (run_ticks advOk (k + 1) [(ns, ⟨es.foldl enqueue_change [], .unattempted⟩)]).2
        = ((es.drop 1).take k).map (fun e => (ns, e)) := by
  have hq : es.foldl enqueue_change [] = es.drop 1 := by
    have := foldl_enqueue_overflow es [] (by simp [QMAX])
      (by simpa using hlen)
    simpa using this
  refine ⟨hq, (process_changes_out_keys advOk ps).nodup hnd, ?_⟩
  rw [hq]
  simp [run_ticks, process_changes, hadv, run_ticks_single_active]

/-- An arbitrary concrete change entry for the C7 witness. -/
def wEntry : ParamEntry := ⟨[], "n".data, [], "p".data, none, .str [], none⟩

/-- Witness for C7: a burst of QMAX+1 enqueues followed by four ticks. -/
theorem queue_eviction_and_fifo_witness :
    (List.replicate (QMAX + 1) wEntry).foldl enqueue_change []
      = (List.replicate (QMAX + 1) wEntry).drop 1
    ∧ ((process_changes (fun _ => true) []).2.map Prod.fst).Nodup
    ∧ (run_ticks (fun _ => true) (3 + 1)
        [("n".data, ⟨(List.replicate (QMAX + 1) wEntry).foldl enqueue_change [],
          .unattempted⟩)]).2
        = (((List.replicate (QMAX + 1) wEntry).drop 1).take 3).map
            (fun e => ("n".data, e)) :=
  queue_eviction_and_fifo (List.replicate (QMAX + 1) wEntry) "n".data
    (fun _ => true) 3 [] rfl rfl List.nodup_nil

/-! ### C5 -/

theorem buildElems_eq (l : List (Str × ParamEntry))
    (h : ∀ kv ∈ l, ∃ s, kv.2.value = .str s) :
    buildElems l = .ok (l.map elemOfRecord) := by
  induction l with
  | nil => rfl
  | cons hd tl ih =>
    obtain ⟨k, e⟩ := hd
    obtain ⟨s, hs⟩ := h (k, e) (List.mem_cons_self _ _)
    have hs' : e.value = .str s := hs
    rw [List.map_cons]
    simp [buildElems, attribOfValue, hs',
      ih (fun kv hk => h kv (List.mem_cons_of_mem _ hk)), elemOfRecord, unStr]

theorem xmlAttrNormalize_of_clean : ∀ s : Str, xmlCleanStr s = true →
    xmlAttrNormalize s = s := by
  intro s
  induction s with
  | nil => intro _; rfl
  | cons c rest ih =>
    intro h
    rw [xmlCleanStr, List.all_cons, Bool.and_eq_true] at h
    have hcc : (c = '\t' || c = '\n' || c = '\r') = false := by
      have hc := h.1
      rw [xmlCleanChar, Bool.and_eq_true, Bool.not_eq_true'] at hc
      exact hc.2
    rw [xmlAttrNormalize, if_neg (by rw [hcc]; exact Bool.false_ne_true),
      ih h.2]

theorem xmlValidStr_of_clean : ∀ s : Str, xmlCleanStr s = true →
    xmlValidStr s = true := by
  intro s
  induction s with
  | nil => intro _; rfl
  | cons c rest ih =>
    intro h
    rw [xmlCleanStr, List.all_cons, Bool.and_eq_true] at h
    rw [xmlValidStr, List.all_cons, Bool.and_eq_true]
    have hc := h.1
    rw [xmlCleanChar, Bool.and_eq_true] at hc
    exact ⟨hc.1, ih h.2⟩

theorem xmlElemValid_elemOfRecord (kv : Str × ParamEntry)
    (hns : xmlValidStr kv.2.ns = true) (hname : xmlValidStr kv.2.name = true)
    (ht : xmlValidStr kv.2.type = true)
    (hv : xmlValidStr (unStr kv.2.value) = true) :
    xmlElemValid (elemOfRecord kv) = true := by
  have htag : xmlValidStr "parameter".data = true := by decide
  simp [xmlElemValid, elemOfRecord, htag, hns, hname, ht, hv]

theorem xmlWriteElem_of_clean (el : XElem)
    (hns : xmlCleanStr el.ns = true) (hname : xmlCleanStr el.name = true)
    (ht : xmlCleanStr el.type = true) (hv : xmlCleanStr el.value = true) :
    xmlWriteElem el = el := by
  rw [xmlWriteElem, xmlAttrNormalize_of_clean _ hns,
    xmlAttrNormalize_of_clean _ hname, xmlAttrNormalize_of_clean _ ht,
    xmlAttrNormalize_of_clean _ hv]

/-- A record whose scalar value holds a line feed. -/
def newlineEntry : ParamEntry :=
  ⟨"w".data, "a".data, "String".data, "x".data, none, .str "a\nb".data, none⟩

/-- A one-record registry whose value holds a line feed. -/
def newlineState : ServerState := ⟨[("a/x".data, newlineEntry)], [], []⟩

/-- What save writes for it: minidom leaves the LF literal in the
attribute, so the file parses back with a space in its place. -/
def newlineFs : FS :=
  [("f".data,
    .doc [⟨"parameter".data, "a".data, "x".data, "String".data, "a b".data⟩])]

/-- The registry produced by loading that file into an empty registry. -/
def newlineLoaded : ServerState :=
  ⟨[("a/x".data,
     ⟨"default".data, "a".data, "String".data, "x".data, none,
      .str "a b".data, none⟩)],
   [("a".data, ⟨[], .unattempted⟩)], newlineFs⟩

/-- C6 counterexample: the round trip is not the identity on all scalar
String-typed records — a value holding a line feed is written unescaped
by `toprettyxml` and comes back as a space from `ET.parse`'s
attribute-value normalization, so the reloaded (namespace, name, type,
value) tuples differ from the saved ones. -/
theorem save_load_newline_counterexample :
    save_parameters_to_file "f".data atAll newlineState
      = .ok ⟨newlineState.db, [], newlineFs⟩
    ∧ load_parameters_from_file "f".data atAll false ⟨[], [], newlineFs⟩
      = .ok (true, newlineLoaded)
    ∧ newlineLoaded.db.map (fun kv => unStr kv.2.value)
      ≠ newlineState.db.map (fun kv => unStr kv.2.value) :=
  ⟨rfl, rfl, by decide⟩

theorem put_load_step (ns nod t name : Str) (v : PValue) (pc : Bool)
    (st : ServerState) (hn : ':' ∉ name) :
    ∃ ps, put_parameter_in_db ns nod t name v pc st =
      .ok ⟨aset (ns ++ '/' :: name) ⟨nod, ns, t, name, none, v, none⟩ st.db,
           ps, st.fs⟩ :=
  ⟨_, put_eq_of_split ns nod t name v pc st name none
    (splitName_of_not_mem name hn)⟩

theorem load_elements_atAll : ∀ (elems : List XElem) (pc : Bool)
    (st : ServerState),
    (∀ el ∈ elems, el.tag = "parameter".data) →
    (∀ el ∈ elems, ':' ∉ el.name) →
    ∃ ps, load_elements elems atAll pc st =
      .ok ⟨elems.foldl
            (fun db el => aset (el.ns ++ '/' :: el.name) (loadedEntry el) db)
            st.db,
           ps, st.fs⟩ := by
  intro elems
  induction elems with
  | nil =>
    intro pc st _ _
    exact ⟨st.pubs, rfl⟩
  | cons el rest ih =>
    intro pc st htag hname
    have hcond : el.tag = "parameter".data ∧ (atAll = atAll ∨ atAll = el.ns) :=
      ⟨htag el (List.mem_cons_self _ _), Or.inl rfl⟩
    obtain ⟨ps1, hput⟩ := put_load_step el.ns "default".data el.type el.name
      (.str el.value) pc st (hname el (List.mem_cons_self _ _))
    rw [show (⟨"default".data, el.ns, el.type, el.name, none, .str el.value,
      none⟩ : ParamEntry) = loadedEntry el from rfl] at hput
    obtain ⟨ps2, ih'⟩ := ih pc
      ⟨aset (el.ns ++ '/' :: el.name) (loadedEntry el) st.db, ps1, st.fs⟩
      (fun e he => htag e (List.mem_cons_of_mem _ he))
      (fun e he => hname e (List.mem_cons_of_mem _ he))
    refine ⟨ps2, ?_⟩
    have hle : load_elements (el :: rest) atAll pc st =
        load_elements rest atAll pc
          ⟨aset (el.ns ++ '/' :: el.name) (loadedEntry el) st.db, ps1, st.fs⟩ := by
      simp [load_elements, hcond, load_parameter_from_xml, hput]
    rw [hle, ih']
    rfl

theorem foldl_doc_fresh : ∀ (elems : List XElem) (acc : Store),
    (elems.map (fun el => el.ns ++ '/' :: el.name)).Nodup →
    (∀ el ∈ elems, alookup (el.ns ++ '/' :: el.name) acc = none) →
    elems.foldl (fun db el => aset (el.ns ++ '/' :: el.name) (loadedEntry el) db)
        acc
      = acc ++ elems.map pairOfElem := by
  intro elems
  induction elems with
  | nil => intro acc _ _; simp
  | cons el rest ih =>
    intro acc hnd hfresh
    have hnd' := List.nodup_cons.mp hnd
    rw [List.foldl_cons,
      aset_append_of_none _ _ acc (hfresh el (List.mem_cons_self _ _))]
    rw [ih (acc ++ [(el.ns ++ '/' :: el.name, loadedEntry el)]) hnd'.2 ?_]
    · simp [pairOfElem]
    · intro e he
      rw [alookup_append_of_none _ _ _ (hfresh e (List.mem_cons_of_mem _ he))]
      have hne : e.ns ++ '/' :: e.name ≠ el.ns ++ '/' :: el.name := by
        intro hcontra
        have hm : el.ns ++ '/' :: el.name
            ∈ rest.map (fun el => el.ns ++ '/' :: el.name) := by
          rw [← hcontra]
          exact List.mem_map_of_mem _ he
        exact hnd'.1 hm
      simp [alookup, hne]

/-- C6 (amended): saving a registry of scalar String-typed records (keys
the dict keys namespace/name and names colon-free, as every reachable
registry has) whose namespace, name, type and value strings survive the
XML pipeline unchanged — XML-valid and free of tab/LF/CR — to a file,
and loading that file back into an empty registry with the `@` filter,
reproduces exactly the same (namespace, name, type, value) tuples, in
order.  Without the clean-characters proviso the round trip is not the
identity: tab/LF/CR come back as spaces and XML-invalid characters make
the save raise. -/
theorem save_load_roundtrip (st : ServerState) (f : Str) (pc : Bool)
    (hkeys : (st.db.map Prod.fst).Nodup)
    (hrec : ∀ kv ∈ st.db, kv.1 = kv.2.ns ++ '/' :: kv.2.name ∧
      ':' ∉ kv.2.name ∧ kv.2.type = "String".data ∧
      (∃ s, kv.2.value = .str s) ∧
      xmlCleanStr kv.2.ns = true ∧ xmlCleanStr kv.2.name = true ∧
      xmlCleanStr kv.2.type = true ∧
      xmlCleanStr (unStr kv.2.value) = true) :
    ∃ st1, save_parameters_to_file f atAll st = .ok st1 ∧
      ∃ st2, load_parameters_from_file f atAll pc ⟨[], [], st1.fs⟩
          = .ok (true, st2) ∧
        st2.db.map (fun kv => entryTuple kv.2)
          = st.db.map (fun kv => entryTuple kv.2) := by
  have hfilter : st.db.filter (fun kv => decide (atAll = atAll ∨ atAll = kv.2.ns))
      = st.db :=
    List.filter_eq_self.mpr (fun kv _ => decide_eq_true (Or.inl rfl))
  have hdoc : buildElems
      (st.db.filter (fun kv => decide (atAll = atAll ∨ atAll = kv.2.ns)))
      = .ok (st.db.map elemOfRecord) := by
    rw [hfilter]
    exact buildElems_eq st.db (fun kv hk => (hrec kv hk).2.2.2.1)
  have hvalid : ((st.db.map elemOfRecord).all xmlElemValid) = true := by
    rw [List.all_eq_true]
    intro el hel
    obtain ⟨kv, hkvm, hkv⟩ := List.mem_map.mp hel
    obtain ⟨-, -, -, -, h5, h6, h7, h8⟩ := hrec kv hkvm
    rw [← hkv]
    exact xmlElemValid_elemOfRecord kv (xmlValidStr_of_clean _ h5)
      (xmlValidStr_of_clean _ h6) (xmlValidStr_of_clean _ h7)
      (xmlValidStr_of_clean _ h8)
  have hwrite : (st.db.map elemOfRecord).map xmlWriteElem
      = st.db.map elemOfRecord := by
    rw [List.map_map]
    apply List.map_eq_map_iff.mpr
    intro kv hk
    obtain ⟨-, -, -, -, h5, h6, h7, h8⟩ := hrec kv hk
    exact xmlWriteElem_of_clean (elemOfRecord kv) h5 h6 h7 h8
  refine ⟨{ st with fs := aset f (.doc (st.db.map elemOfRecord)) st.fs }, ?_, ?_⟩
  · unfold save_parameters_to_file
    rw [hdoc]
    show (if ((st.db.map elemOfRecord).all xmlElemValid) = true then
          (Except.ok { st with fs := aset f (.doc ((st.db.map
            elemOfRecord).map xmlWriteElem)) st.fs }
            : Except String ServerState)
        else .error "ExpatError")
      = .ok { st with fs := aset f (.doc (st.db.map elemOfRecord)) st.fs }
    rw [if_pos hvalid, hwrite]
  · show ∃ st2, load_parameters_from_file f atAll pc
        ⟨[], [], aset f (.doc (st.db.map elemOfRecord)) st.fs⟩
        = .ok (true, st2) ∧
      st2.db.map (fun kv => entryTuple kv.2)
        = st.db.map (fun kv => entryTuple kv.2)
    have hlook : alookup f (aset f (.doc (st.db.map elemOfRecord)) st.fs)
        = some (.doc (st.db.map elemOfRecord)) :=
      alookup_aset_self f (.doc (st.db.map elemOfRecord)) st.fs
    have htag : ∀ el ∈ st.db.map elemOfRecord, el.tag = "parameter".data := by
      intro el hel
      obtain ⟨kv, _, hkv⟩ := List.mem_map.mp hel
      rw [← hkv]
      rfl
    have hname : ∀ el ∈ st.db.map elemOfRecord, ':' ∉ el.name := by
      intro el hel
      obtain ⟨kv, hkvm, hkv⟩ := List.mem_map.mp hel
      rw [← hkv]
      exact (hrec kv hkvm).2.1
    obtain ⟨ps, hload⟩ := load_elements_atAll (st.db.map elemOfRecord) pc
      ⟨[], [], aset f (.doc (st.db.map elemOfRecord)) st.fs⟩ htag hname
    have hdockeys : (st.db.map elemOfRecord).map
        (fun el => el.ns ++ '/' :: el.name) = st.db.map Prod.fst := by
      rw [List.map_map]
      exact List.map_eq_map_iff.mpr (fun kv hk => ((hrec kv hk).1).symm)
    have hnd2 : ((st.db.map elemOfRecord).map
        (fun el => el.ns ++ '/' :: el.name)).Nodup := by
      rw [hdockeys]
      exact hkeys
    have hfold := foldl_doc_fresh (st.db.map elemOfRecord) [] hnd2
      (fun el _ => rfl)
    refine ⟨⟨(st.db.map elemOfRecord).map pairOfElem, ps,
      aset f (.doc (st.db.map elemOfRecord)) st.fs⟩, ?_, ?_⟩
    · simp only [load_parameters_from_file, hlook, hload, hfold,
        List.nil_append]
    · show ((st.db.map elemOfRecord).map pairOfElem).map
          (fun kv => entryTuple kv.2)
        = st.db.map (fun kv => entryTuple kv.2)
      rw [List.map_map, List.map_map]
      apply List.map_eq_map_iff.mpr
      intro kv hk
      obtain ⟨s, hs⟩ := (hrec kv hk).2.2.2.1
      simp [Function.comp, entryTuple, pairOfElem, loadedEntry, elemOfRecord,
        unStr, hs]

/-- A two-record, two-namespace registry of String scalars. -/
def roundtripDb : Store :=
  [("a/x".data, ⟨"w".data, "a".data, "String".data, "x".data, none, .str "1".data, none⟩),
   ("b/y".data, ⟨"w".data, "b".data, "String".data, "y".data, none, .str "2".data, none⟩)]

/-- Witness for C6: save then load of the concrete two-record registry. -/
theorem save_load_roundtrip_witness :
    ∃ st1, save_parameters_to_file "f".data atAll ⟨roundtripDb, [], []⟩
        = .ok st1 ∧
      ∃ st2, load_parameters_from_file "f".data atAll false ⟨[], [], st1.fs⟩
          = .ok (true, st2) ∧
        st2.db.map (fun kv => entryTuple kv.2)
          = roundtripDb.map (fun kv => entryTuple kv.2) :=
  save_load_roundtrip ⟨roundtripDb, [], []⟩ "f".data false (by decide)
    (by
      intro kv hk
      rcases List.mem_cons.mp hk with h | h
      · subst h
        exact ⟨rfl, by decide, rfl, ⟨"1".data, rfl⟩,
          by decide, by decide, by decide, by decide⟩
      · rcases List.mem_cons.mp h with h | h
        · subst h
          exact ⟨rfl, by decide, rfl, ⟨"2".data, rfl⟩,
            by decide, by decide, by decide, by decide⟩
        · exact absurd h (List.not_mem_nil kv))

/-! ### C10 -/

/-- Key-record consistency: every stored record sits under the key
`namespace/name` built from its own fields, and its name holds no colon. -/
def dbInv (db : Store) : Prop :=
  ∀ kv ∈ db, kv.1 = kv.2.ns ++ '/' :: kv.2.name ∧ ':' ∉ kv.2.name

theorem dbInv_aset (db : Store) (k : Str) (e : ParamEntry)
    (hdb : dbInv db) (hk : k = e.ns ++ '/' :: e.name) (hn : ':' ∉ e.name) :
    dbInv (aset k e db) := by
  intro kv hkv
  rcases mem_aset kv k e db hkv with h | h
  · exact hdb kv h
  · subst h
    exact ⟨hk, hn⟩

theorem dbInv_put (ns nod t name : Str) (v : PValue) (pc : Bool)
    (st st' : ServerState)
    (h : put_parameter_in_db ns nod t name v pc st = .ok st')
    (hdb : dbInv st.db) : dbInv st'.db := by
  obtain ⟨pname, entry, hpn, hns, hname, hdbeq, _⟩ :=
    put_db_shape ns nod t name v pc st st' h
  rw [hdbeq]
  apply dbInv_aset st.db _ entry hdb
  · rw [hns, hname]
  · rw [hname]
    exact hpn

theorem dbInv_get (ns name : Str) (db : Store) (hdb : dbInv db) :
    dbInv (get_parameter_from_db ns name db).2 := by
  cases hl : alookup (ns ++ '/' :: name) db with
  | none =>
    rw [get_miss ns name db hl]
    exact hdb
  | some e =>
    rw [get_hit ns name db e hl]
    have hmem := alookup_mem _ _ _ hl
    exact dbInv_aset db _ _ hdb (hdb _ hmem).1 (hdb _ hmem).2

theorem mem_purge_loop : ∀ (keys : List Str) (target : Str) (db : Store)
    (kv : Str × ParamEntry), kv ∈ purge_loop keys target db → kv ∈ db := by
  intro keys
  induction keys with
  | nil =>
    intro target db kv h
    exact h
  | cons k rest ih =>
    intro target db kv h
    simp only [purge_loop] at h
    cases hl : alookup k db with
    | none =>
      simp only [hl] at h
      exact ih target db kv h
    | some e =>
      simp only [hl] at h
      by_cases hm : target = e.ns
      · rw [if_pos hm] at h
        exact mem_aremove kv k db (ih target _ kv h)
      · rw [if_neg hm] at h
        exact ih target db kv h

theorem dbInv_purge (n : Str) (db : Store) (hdb : dbInv db) :
    dbInv (purge_db n db) := by
  intro kv hkv
  unfold purge_db at hkv
  by_cases h : n = atAll
  · rw [if_pos h] at hkv
    exact absurd hkv (List.not_mem_nil kv)
  · rw [if_neg h] at hkv
    exact hdb kv (mem_purge_loop _ n db kv hkv)

theorem save_db_eq (filename ns : Str) (st st' : ServerState)
    (h : save_parameters_to_file filename ns st = .ok st') : st'.db = st.db := by
  unfold save_parameters_to_file at h
  cases hb : buildElems
      (st.db.filter (fun kv => decide (ns = atAll ∨ ns = kv.2.ns))) with
  | error e =>
    rw [hb] at h
    cases h
  | ok doc =>
    rw [hb] at h
    have h' : (if ((doc.all xmlElemValid) = true) then
        (Except.ok { st with
          fs := aset filename (.doc (doc.map xmlWriteElem)) st.fs }
          : Except String ServerState)
        else .error "ExpatError") = .ok st' := h
    by_cases hv : (doc.all xmlElemValid) = true
    · rw [if_pos hv] at h'
      injection h' with h'
      rw [← h']
    · rw [if_neg hv] at h'
      cases h'

theorem dbInv_load_elements : ∀ (elems : List XElem) (ns : Str) (pc : Bool)
    (st st' : ServerState), load_elements elems ns pc st = .ok st' →
    dbInv st.db → dbInv st'.db := by
  intro elems
  induction elems with
  | nil =>
    intro ns pc st st' h hdb
    injection h with h
    rw [← h]
    exact hdb
  | cons el rest ih =>
    intro ns pc st st' h hdb
    by_cases hc : el.tag = "parameter".data ∧ (ns = atAll ∨ ns = el.ns)
    · simp only [load_elements, if_pos hc] at h
      cases hput : load_parameter_from_xml el pc st with
      | error e =>
        rw [hput] at h
        cases h
      | ok st1 =>
        rw [hput] at h
        exact ih ns pc st1 st' h
          (dbInv_put el.ns "default".data el.type el.name (.str el.value)
            pc st st1 hput hdb)
    · simp only [load_elements, if_neg hc] at h
      exact ih ns pc st st' h hdb

theorem dbInv_load_file (filename ns : Str) (pc : Bool) (st : ServerState)
    (r : Bool × ServerState)
    (h : load_parameters_from_file filename ns pc st = .ok r)
    (hdb : dbInv st.db) : dbInv r.2.db := by
  unfold load_parameters_from_file at h
  cases hf : alookup filename st.fs with
  | none =>
    rw [hf] at h
    injection h with h
    rw [← h]
    exact hdb
  | some x =>
    cases x with
    | malformed =>
      simp only [hf] at h
      cases h
    | doc d =>
      simp only [hf] at h
      cases hle : load_elements d ns pc st with
      | error e =>
        rw [hle] at h
        cases h
      | ok st1 =>
        rw [hle] at h
        injection h with h
        rw [← h]
        exact dbInv_load_elements d ns pc st st1 hle hdb

theorem dbInv_cb (m : CmdMsg) (st : ServerState) (r : Response)
    (st' : ServerState) (h : parameter_cb m st = .ok (r, st'))
    (hdb : dbInv st.db) : dbInv st'.db := by
  simp only [parameter_cb] at h
  by_cases h1 : m.cmd.map Char.toLower = "put".data
  · rw [if_pos h1] at h
    cases hput : put_parameter_in_db m.ns m.nodename m.type m.name m.value
        true st with
    | error e =>
      rw [hput] at h
      cases h
    | ok st1 =>
      rw [hput] at h
      injection h with h
      have h2 : st1 = st' := congrArg Prod.snd h
      rw [← h2]
      exact dbInv_put m.ns m.nodename m.type m.name m.value true st st1 hput hdb
  · rw [if_neg h1] at h
    by_cases h2 : m.cmd.map Char.toLower = "get".data
    · rw [if_pos h2] at h
      injection h with h
      have h3 : { st with db := (get_parameter_from_db m.ns m.name st.db).2 }
          = st' := congrArg Prod.snd h
      rw [← h3]
      exact dbInv_get m.ns m.name st.db hdb
    · rw [if_neg h2] at h
      by_cases h3 : m.cmd.map Char.toLower = "list".data
      · rw [if_pos h3] at h
        injection h with h
        have h4 : st = st' := congrArg Prod.snd h
        rw [← h4]
        exact hdb
      · rw [if_neg h3] at h
        by_cases h4 : m.cmd.map Char.toLower = "purge".data
        · rw [if_pos h4] at h
          injection h with h
          have h5 : { st with db := purge_db m.ns st.db } = st' :=
            congrArg Prod.snd h
          rw [← h5]
          exact dbInv_purge m.ns st.db hdb
        · rw [if_neg h4] at h
          by_cases h5 : m.cmd.map Char.toLower = "save".data
          · rw [if_pos h5] at h
            cases hs : save_parameters_to_file m.filename m.ns st with
            | error e =>
              rw [hs] at h
              cases h
            | ok st1 =>
              rw [hs] at h
              injection h with h
              have h6 : st1 = st' := congrArg Prod.snd h
              rw [← h6]
              intro kv hkv
              rw [save_db_eq m.filename m.ns st st1 hs] at hkv
              exact hdb kv hkv
          · rw [if_neg h5] at h
            by_cases h6 : m.cmd.map Char.toLower = "load".data
            · rw [if_pos h6] at h
              cases hl : load_parameters_from_file m.filename m.ns
                  m.publish_change st with
              | error e =>
                rw [hl] at h
                cases h
              | ok r0 =>
                rw [hl] at h
                injection h with h
                have h7 : r0.2 = st' := congrArg Prod.snd h
                rw [← h7]
                exact dbInv_load_file m.filename m.ns m.publish_change st r0
                  hl hdb
            · rw [if_neg h6] at h
              injection h with h
              have h7 : st = st' := congrArg Prod.snd h
              rw [← h7]
              exact hdb

/-- C10: in every reachable server state, every record stored under a
fully-qualified key K satisfies K = namespace + "/" + name built from the
record's own fields, and the stored name never holds a ':' — put always
splits the rawName at ':' before storing, so no parameter whose visible
name holds a colon can ever exist in the registry. -/
theorem store_key_name_invariant (st : ServerState) (hr : Reachable st) :
    ∀ kv ∈ st.db, kv.1 = kv.2.ns ++ '/' :: kv.2.name ∧ ':' ∉ kv.2.name := by
  induction hr with
  | init fs =>
    intro kv hkv
    exact absurd hkv (List.not_mem_nil kv)
  | step m st1 st2 r _ hcb ih => exact dbInv_cb m st1 r st2 hcb ih
  | tick advOk st1 _ ih => exact ih

/-- The record stored by the witness put below. -/
def kEntry : ParamEntry :=
  ⟨"nod".data, "n".data, "T".data, "k".data, none, .str "v".data, none⟩

/-- The state reached from the empty registry by one put command. -/
def reachedState : ServerState :=
  ⟨[("n/k".data, kEntry)], [("n".data, ⟨[kEntry], .unattempted⟩)], []⟩

/-- Witness for C10: the invariant evaluated at the record of a state
reached by one put command from the empty registry. -/
theorem store_key_name_invariant_witness :
    ("n/k".data, kEntry).1 = kEntry.ns ++ '/' :: kEntry.name ∧
    ':' ∉ kEntry.name :=
  store_key_name_invariant reachedState
    (Reachable.step
      ⟨"put".data, "n".data, "k".data, "T".data, .str "v".data, "nod".data,
       [], true⟩
      ⟨[], [], []⟩ reachedState .okMsg (Reachable.init []) rfl)
    ("n/k".data, kEntry) (List.mem_cons_self _ _)
